import Mathlib

/-!
Verification development for the traycer-mini plan-editing extension.

The definitions below are a shallow embedding of the TypeScript sources:
the plan parser (`parsePlanIntoSteps`), the markdown cleaning transform
(`cleanMarkdown`), the controller's webview message handler
(`onDidReceiveMessage`, embedded as `handleMessage`), the asynchronous
tail of the reject flow, and the refine-step error handling
(`refineStep`).

Embedding conventions:
- JavaScript strings are Lean `String`s (lists of characters); the
  JS whitespace class and `trim` are modelled over the ASCII whitespace
  characters (space, tab, newline, carriage return, vertical tab, form
  feed); the rarely relevant Unicode space classes are omitted.
- `Date` timestamps are `Nat`s supplied as an explicit `now` argument.
- `crypto.randomUUID()` is modelled by an explicitly supplied fresh id.
- The fallible OpenAI chat call is modelled as an oracle producing
  either the optional message content or a thrown error's message.
- The webview's progress display (`updateProgressDisplay`) is not
  embedded: it computes `Math.round((acceptedCount/totalCount)*100)` in
  IEEE-754 double arithmetic, whose rounding is observable in the output
  (23 accepted of 40 steps displays 57, where exact rational arithmetic
  rounds 57.5 up to 58), and double semantics are outside this
  integer/rational embedding.
-/

/-! ## JS string primitives -/

/-- The JS `\s` character class / `trim` whitespace set, restricted to its
ASCII members. -/
def isWS (c : Char) : Bool :=
  c = ' ' || c = '\t' || c = '\n' || c = '\r' || c = '\x0b' || c = '\x0c'

/-- The JS `\d` character class. -/
def isDigitC (c : Char) : Bool :=
  '0' ≤ c && c ≤ '9'

/-- Remove leading whitespace (left half of JS `String.prototype.trim`). -/
def trimL (l : List Char) : List Char := l.dropWhile isWS

/-- Remove trailing whitespace (right half of JS `String.prototype.trim`). -/
def trimR : List Char → List Char
  | [] => []
  | c :: rest =>
    let r := trimR rest
    if r = [] && isWS c then [] else c :: r

/-- JS `String.prototype.trim` over the character list. -/
def jsTrim (l : List Char) : List Char := trimL (trimR l)

/-- JS `String.prototype.trim` over `String`. -/
def jsTrimS (s : String) : String := String.mk (jsTrim s.data)

/-! ## parsePlanIntoSteps (planService.ts)

```
const stepSections = plan.split(/(?=Step\s+\d+:)/i);
for (const section of stepSections) {
    const trimmedSection = section.trim();
    if (trimmedSection.length === 0) continue;
    const stepMatch = trimmedSection.match(/^Step\s+\d+:\s*(.*)/is);
    if (stepMatch && stepMatch[1]) {
        const stepContent = stepMatch[1].trim();
        if (stepContent.length > 20) steps.push(stepContent);
    }
}
```
-/

/-- Match the regex `Step\s+\d+:` (case-insensitively) at the head of the
list; on success return the remainder after the colon.  The character
classes `\s` and `\d` are disjoint and followed by the literal `:`, so the
greedy scan below coincides with the regex's backtracking semantics. -/
def stepLabelSplit : List Char → Option (List Char)
  | c1 :: c2 :: c3 :: c4 :: rest =>
    if c1.toLower = 's' ∧ c2.toLower = 't' ∧ c3.toLower = 'e' ∧ c4.toLower = 'p' then
      let wsRun := rest.takeWhile isWS
      let afterWs := rest.dropWhile isWS
      if wsRun = [] then none
      else
        let digRun := afterWs.takeWhile isDigitC
        let afterDig := afterWs.dropWhile isDigitC
        if digRun = [] then none
        else
          match afterDig with
          | ':' :: r => some r
          | _ => none
    else none
  | _ => none

/-- `plan.split(/(?=Step\s+\d+:)/i)`: cut the text immediately before every
position (other than position 0, where JS `split` suppresses the empty
piece) at which the step label matches.  `acc` holds the reversed current
section. -/
def splitSectionsAux : List Char → List Char → List (List Char)
  | [], acc => [acc.reverse]
  | c :: rest, acc =>
    if (stepLabelSplit (c :: rest)).isSome ∧ acc ≠ [] then
      acc.reverse :: splitSectionsAux rest [c]
    else
      splitSectionsAux rest (c :: acc)

def splitSections (plan : List Char) : List (List Char) :=
  splitSectionsAux plan []

/-- The body of the `for (const section of stepSections)` loop.  The
`trimmedSection.length === 0` guard and the truthiness test on the capture
`stepMatch[1]` are both subsumed: an empty trimmed section fails the label
match, and an empty capture trims to length 0 ≤ 20. The capture group
`\s*(.*)` (with `/s`) takes everything after the label minus leading
whitespace, which the subsequent `.trim()` removes anyway. -/
def processSection (sec : List Char) : Option (List Char) :=
  match stepLabelSplit (jsTrim sec) with
  | some rest =>
    let stepContent := jsTrim rest
    if 20 < stepContent.length then some stepContent else none
  | none => none

/-- `parsePlanIntoSteps`, over character lists. -/
def parseStepsL (plan : List Char) : List (List Char) :=
  (splitSections plan).filterMap processSection

/-- `parsePlanIntoSteps` from planService.ts. -/
def parsePlanIntoSteps (plan : String) : List String :=
  (parseStepsL plan.data).map String.mk

/-! ## cleanMarkdown (planService.ts)

Six successive global regex replacements:
`/\*\*(.*?)\*\*/g → <strong>$1</strong>`, `/\*(.*?)\*/g → <em>$1</em>`,
``/`(.*?)`/g → <code>$1</code>``, `/^- (.*$)/gim → • $1`,
`/#{1,6}\s/g → (removed)`, `/\n/g → <br>`.
-/

/-- Does `pat` occur at the head of the list? -/
def leadsWith : List Char → List Char → Bool
  | [], _ => true
  | _ :: _, [] => false
  | p :: ps, c :: cs => p = c && leadsWith ps cs

/-- Scan for the lazily-nearest closing delimiter `d0 :: ds`, not crossing a
newline (the `.` in `(.*?)` does not match `\n`).  Returns the captured
middle and the remainder after the closing delimiter. -/
def findClose (d0 : Char) (ds : List Char) : List Char → Option (List Char × List Char)
  | [] => none
  | c :: rest =>
    if leadsWith (d0 :: ds) (c :: rest) then some ([], (c :: rest).drop (d0 :: ds).length)
    else if c = '\n' then none
    else
      match findClose d0 ds rest with
      | some (mid, r) => some (c :: mid, r)
      | none => none

/-- One global replacement pass for a pattern `d (.*?) d` with replacement
`pre $1 post`, as in the bold/italic/inline-code rules.  `fuel` bounds the
number of characters consumed; every step consumes at least one, so
`l.length + 1` is always sufficient. -/
def replWrappedF (d0 : Char) (ds pre post : List Char) : Nat → List Char → List Char
  | 0, l => l
  | _ + 1, [] => []
  | fuel + 1, c :: rest =>
    if leadsWith (d0 :: ds) (c :: rest) then
      match findClose d0 ds ((c :: rest).drop (d0 :: ds).length) with
      | some (mid, r) => pre ++ mid ++ post ++ replWrappedF d0 ds pre post fuel r
      | none => c :: replWrappedF d0 ds pre post fuel rest
    else c :: replWrappedF d0 ds pre post fuel rest

def replWrapped (d0 : Char) (ds pre post : List Char) (l : List Char) : List Char :=
  replWrappedF d0 ds pre post (l.length + 1) l

/-- Split at newline characters (for the `/m`-anchored bullet rule). -/
def splitOnNL : List Char → List (List Char)
  | [] => [[]]
  | c :: rest =>
    if c = '\n' then [] :: splitOnNL rest
    else
      match splitOnNL rest with
      | [] => [[c]]
      | h :: t => (c :: h) :: t

/-- `/^- (.*$)/gim → • $1` restricted to a single line. -/
def bulletLine (l : List Char) : List Char :=
  if l.take 2 = ['-', ' '] then '•' :: ' ' :: l.drop 2 else l

/-- The bullet replacement pass (the `^`/`$` anchors with `/m` make the
global replacement act independently on each `\n`-separated line). -/
def bulletPass (l : List Char) : List Char :=
  List.intercalate ['\n'] ((splitOnNL l).map bulletLine)

/-- One global pass of `/#{1,6}\s/g → ''`.  At a `#` run of length `j`, the
greedy quantifier with backtracking matches exactly when `j ≤ 6` and a
whitespace character follows the run (an inner backtrack always meets
another `#`); on a failed match, scanning resumes one character later.
`fuel ≥ l.length + 1` is always sufficient. -/
def stripHashesF : Nat → List Char → List Char
  | 0, l => l
  | _ + 1, [] => []
  | fuel + 1, c :: rest =>
    if c = '#' then
      let run := (c :: rest).takeWhile (fun x => x = '#')
      let after := (c :: rest).dropWhile (fun x => x = '#')
      match after with
      | w :: r =>
        if run.length ≤ 6 && isWS w then stripHashesF fuel r
        else c :: stripHashesF fuel rest
      | [] => c :: stripHashesF fuel rest
    else c :: stripHashesF fuel rest

def hashPass (l : List Char) : List Char :=
  stripHashesF (l.length + 1) l

/-- `/\n/g → <br>`. -/
def brPass (l : List Char) : List Char :=
  l.foldr (fun c acc => if c = '\n' then '<' :: 'b' :: 'r' :: '>' :: acc else c :: acc) []

/-- `cleanMarkdown` from planService.ts: the six replacement passes in
source order. -/
def cleanMarkdown (text : String) : String :=
  String.mk
    (brPass
      (hashPass
        (bulletPass
          (replWrapped (Char.ofNat 96) [] "<code>".data "</code>".data
            (replWrapped '*' [] "<em>".data "</em>".data
              (replWrapped '*' ['*'] "<strong>".data "</strong>".data text.data))))))

/-! ## Data model (extension.ts) -/

inductive Status
  | accepted
  | rejected
  | edited
  | refining
deriving DecidableEq, Repr

/-- `PlanStep` (extension.ts): `status` is optional (`unset` is `none`);
`originalIndex` is the 1-based display index (transiently `-1` inside
`addStep`, hence `Int`). -/
structure PlanStep where
  id : String
  content : String
  status : Option Status
  originalIndex : Int
deriving DecidableEq, Repr

/-- `PlanState` (extension.ts); `lastModified` is a timestamp. -/
structure PlanState where
  steps : List PlanStep
  taskDescription : String
  lastModified : Nat
deriving DecidableEq, Repr

/-- Messages posted from the controller to the webview. -/
inductive Broadcast
  | updateStepStatus (id : String) (status : Status)
  | stateUpdated (state : PlanState)
deriving DecidableEq, Repr

/-- `PlanMessage` (extension.ts): the intents received from the webview. -/
inductive PlanMessage
  | acceptStep (id : String)
  | rejectStep (id : String)
  | editStep (id : String) (content : String)
  | reorderSteps (newOrder : List String)
  | deleteStep (id : String)
  | addStep (afterId : Option String) (content : String)
  | savePlan
  | sendToCopilotChat (content : String)
deriving DecidableEq, Repr

/-- `steps.findIndex(s => s.id === id)`: index of the first step with the
given id; JS returns `-1` when absent, which the source only ever compares
against `-1`, so an `Option` models it faithfully. -/
def findIdxOf (id : String) : List PlanStep → Option Nat
  | [] => none
  | s :: rest => if s.id = id then some 0 else (findIdxOf id rest).map (· + 1)

/-- In-place mutation of the object returned by `steps.find(...)`: rewrite
the first element satisfying `p`. -/
def modifyFirst (p : PlanStep → Bool) (f : PlanStep → PlanStep) : List PlanStep → List PlanStep
  | [] => []
  | s :: rest => if p s then f s :: rest else s :: modifyFirst p f rest

/-- `updateStepIndices` (extension.ts): `steps.forEach((step, index) =>
step.originalIndex = index + 1)`, with `i` the index of the first element. -/
def updateStepIndicesFrom (i : Nat) : List PlanStep → List PlanStep
  | [] => []
  | s :: rest => { s with originalIndex := (i : Int) + 1 } :: updateStepIndicesFrom (i + 1) rest

def updateStepIndices (steps : List PlanStep) : List PlanStep :=
  updateStepIndicesFrom 0 steps

/-- The synchronous part of `panel.webview.onDidReceiveMessage`
(extension.ts, lines 183–296).  `freshId` models `generateStepId()` and
`now` models `new Date()`.  The returned list holds the `postMessage`
broadcasts in order; the source sets `planState.lastModified` once after
the `switch` when `updated` is true, which is inlined into each mutating
branch here.  In `addStep`, `if (message.afterId)` is a JS truthiness
test, so an empty-string `afterId` takes the append branch without any
lookup. -/
def handleMessage (freshId : String) (now : Nat) (message : PlanMessage) (st : PlanState) :
    PlanState × List Broadcast :=
  match message with
  | .acceptStep id =>
    match st.steps.find? (fun s => s.id = id) with
    | some _ =>
      let st' : PlanState :=
        { st with
          steps := modifyFirst (fun s => s.id = id) (fun s => { s with status := some .accepted }) st.steps,
          lastModified := now }
      (st', [.stateUpdated st'])
    | none => (st, [])
  | .rejectStep id =>
    match st.steps.find? (fun s => s.id = id) with
    | some _ =>
      let st' : PlanState :=
        { st with
          steps := modifyFirst (fun s => s.id = id) (fun s => { s with status := some .rejected }) st.steps,
          lastModified := now }
      (st', [.updateStepStatus id .refining, .stateUpdated st'])
    | none => (st, [])
  | .editStep id content =>
    match st.steps.find? (fun s => s.id = id) with
    | some s =>
      if s.content = content then (st, [])
      else
        let st' : PlanState :=
          { st with
            steps := modifyFirst (fun s => s.id = id)
              (fun s => { s with content := content, status := some .edited }) st.steps,
            lastModified := now }
        (st', [.stateUpdated st'])
    | none => (st, [])
  | .reorderSteps newOrder =>
    let newSteps := newOrder.filterMap (fun id => st.steps.find? (fun s => s.id = id))
    let st' : PlanState :=
      { st with steps := updateStepIndices newSteps, lastModified := now }
    (st', [.stateUpdated st'])
  | .deleteStep id =>
    let st' : PlanState :=
      { st with
        steps := updateStepIndices (st.steps.filter (fun s => ¬ s.id = id)),
        lastModified := now }
    (st', [.stateUpdated st'])
  | .addStep afterId content =>
    let newStep : PlanStep :=
      { id := freshId, content := content, status := some .edited, originalIndex := -1 }
    let steps' :=
      match afterId with
      | some a =>
        if a ≠ "" then
          match findIdxOf a st.steps with
          | some i => st.steps.take (i + 1) ++ newStep :: st.steps.drop (i + 1)
          | none => st.steps ++ [newStep]
        else st.steps ++ [newStep]
      | none => st.steps ++ [newStep]
    let st' : PlanState :=
      { st with steps := updateStepIndices steps', lastModified := now }
    (st', [.stateUpdated st'])
  | .savePlan => (st, [])
  | .sendToCopilotChat _ => (st, [])

/-- The asynchronous tail of the `rejectStep` case (extension.ts, lines
214–225): once `refineStep` resolves, the captured step object receives
the refined content and is marked `edited`, `lastModified` is refreshed,
and a `stateUpdated` broadcast is posted — unconditionally, whether or not
the refine call failed.  The captured object is identified here by its id
(valid whenever the step is still present, which all theorems below
assume). -/
def rejectRefineTail (id : String) (refinedContent : String) (now : Nat) (st : PlanState) :
    PlanState × List Broadcast :=
  let st' : PlanState :=
    { st with
      steps := modifyFirst (fun s => s.id = id)
        (fun s => { s with content := refinedContent, status := some .edited }) st.steps,
      lastModified := now }
  (st', [.stateUpdated st'])

/-! ## refineStep (planService.ts) -/

/-- Outcome of `openai.chat.completions.create`:
`ok c` models a response whose `choices[0].message?.content` is `c`
(`none` for a missing/null content), `err e` models a thrown exception
with message `e` (`error instanceof Error ? error.message : String(error)`). -/
inductive GenResult
  | ok (content : Option String)
  | err (msg : String)
deriving DecidableEq, Repr

/-- `allSteps.map((step, idx) => `Step ${idx+1}: ${step}`)
.filter((_, idx) => idx !== stepIndex)`, fused into one pass. -/
def otherStepsList (i : Nat) (stepIndex : Nat) : List String → List String
  | [] => []
  | s :: rest =>
    if i = stepIndex then otherStepsList (i + 1) stepIndex rest
    else ("Step " ++ toString (i + 1) ++ ": " ++ s) :: otherStepsList (i + 1) stepIndex rest

/-- The system message of the refine request. -/
def refineSystemPrompt : String :=
  "You are an expert software architect helping to improve implementation plans. A user rejected a step, meaning they want a DIFFERENT approach, not more detail.\n\nGUIDELINES:\n- Suggest a completely different approach or method for achieving the same goal\n- Consider alternative technologies, patterns, or architectures\n- Think of creative solutions the user might not have considered\n- Keep it practical and implementable\n- Format as plain text without markdown formatting (no ** or ## or bullets)\n- Make it concise but complete (2-4 sentences)\n- Focus on WHAT and HOW, be specific about files/commands when helpful"

/-- The user message of the refine request. -/
def refineUserPrompt (originalStep : String) (allSteps : List String) (stepIndex : Nat)
    (taskContext projectContext : String) : String :=
  let otherSteps := String.intercalate "\n" (otherStepsList 0 stepIndex allSteps)
  "The user rejected this step from their implementation plan:\n\nREJECTED STEP: \"" ++
    originalStep ++ "\"\n\nCONTEXT - This was part of a plan for: \"" ++ taskContext ++
    "\"\n\nOTHER STEPS IN THE PLAN:\n" ++ otherSteps ++ "\n\nPROJECT CONTEXT: \"" ++
    projectContext ++
    "\"\n\nThe user wants a different approach for this step. Suggest an alternative way to accomplish the same goal. Avoid markdown formatting - use plain text only."

/-- `refineStep` from planService.ts.  `oracle` models the chat-completion
call applied to the system and user messages; a thrown exception is an
`err` outcome, caught by the surrounding try/catch.
`response.choices[0].message?.content?.trim() || "Failed to refine step."`
yields the fallback whenever the optional chain is undefined or the
trimmed content is the (falsy) empty string. -/
def refineStep (oracle : String → String → GenResult) (originalStep : String)
    (allSteps : List String) (stepIndex : Nat) (taskContext projectContext : String) : String :=
  match oracle refineSystemPrompt
      (refineUserPrompt originalStep allSteps stepIndex taskContext projectContext) with
  | .ok content =>
    let refinedStep :=
      match content with
      | some c => if jsTrimS c = "" then "Failed to refine step." else jsTrimS c
      | none => "Failed to refine step."
    cleanMarkdown refinedStep
  | .err msg => "Error generating alternative: " ++ msg

/-! ## Claim-level derived definitions -/

/-- The display-index invariant: the step at 0-based position `k` carries
`originalIndex = k + 1`. -/
def indicesOK (steps : List PlanStep) : Prop :=
  ∀ k (h : k < steps.length), (steps.get ⟨k, h⟩).originalIndex = (k : Int) + 1

/-- The structural intents of claim C1. -/
def isStructural : PlanMessage → Bool
  | .reorderSteps _ => true
  | .deleteStep _ => true
  | .addStep _ _ => true
  | _ => false

/-- Apply a sequence of intents; each list entry supplies the fresh id and
timestamp ambient to that dispatch. -/
def applySeq (l : List (String × Nat × PlanMessage)) (st : PlanState) : PlanState :=
  l.foldl (fun s x => (handleMessage x.1 x.2.1 x.2.2 s).1) st

/-- The position at which `addStep` inserts the new step: immediately after
the step `afterId` names when that id is truthy (non-empty) and present,
the end of the list otherwise. -/
def addPos (st : PlanState) (afterId : Option String) : Nat :=
  match afterId with
  | some a =>
    if a ≠ "" then
      match findIdxOf a st.steps with
      | some i => i + 1
      | none => st.steps.length
    else st.steps.length
  | none => st.steps.length

/-- A list of step bodies, each labelled by one digit character, rendered
as the plan text `Step d1: A1\nStep d2: A2\n...`  (the parser never reads
the numeric value of a label, only the shape `Step \d+:`, so one digit per
label loses no generality). -/
def labelledText : List (Char × List Char) → List Char
  | [] => []
  | (d, a) :: rest =>
    'S' :: 't' :: 'e' :: 'p' :: ' ' :: d :: ':' :: ' ' ::
      (a ++ (match rest with
        | [] => ([] : List Char)
        | _ :: _ => '\n' :: labelledText rest))

/-- The sections `plan.split(/(?=Step\s+\d+:)/i)` produces on
`labelledText bodies`: one label-headed section per body, the inner ones
still carrying their trailing newline. -/
def expectedSections : List (Char × List Char) → List (List Char)
  | [] => []
  | (d, a) :: rest =>
    ('S' :: 't' :: 'e' :: 'p' :: ' ' :: d :: ':' :: ' ' ::
      (a ++ (match rest with
        | [] => ([] : List Char)
        | _ :: _ => ['\n']))) :: expectedSections rest

def digitChars : List Char := ['0', '1', '2', '3', '4', '5', '6', '7', '8', '9']

/-- What follows a body in `labelledText`: nothing after the last body, a
newline and the remaining labelled text otherwise. -/
def tailText (rest : List (Char × List Char)) : List Char :=
  match rest with
  | [] => []
  | _ :: _ => '\n' :: labelledText rest

/-- What of the separator stays inside a body's section after the split:
nothing for the last body, the newline otherwise. -/
def sepText (rest : List (Char × List Char)) : List Char :=
  match rest with
  | [] => []
  | _ :: _ => ['\n']

/-- The optional character (a `head?` or `getLast?`) is not whitespace. -/
def notWSopt : Option Char → Prop
  | none => True
  | some c => isWS c = false

instance (o : Option Char) : Decidable (notWSopt o) :=
  match o with
  | none => isTrue trivial
  | some c => inferInstanceAs (Decidable (isWS c = false))

/-- A well-formed step body: trimmed (no leading or trailing whitespace)
and containing no occurrence of the step-label pattern `Step\s+\d+:`
(case-insensitive) at any position. -/
def GoodBody (a : List Char) : Prop :=
  notWSopt a.head? ∧ notWSopt a.getLast? ∧
    ∀ j < a.length, stepLabelSplit (a.drop j) = none

instance (a : List Char) : Decidable (GoodBody a) :=
  inferInstanceAs (Decidable (notWSopt a.head? ∧ notWSopt a.getLast? ∧
    ∀ j < a.length, stepLabelSplit (a.drop j) = none))

/-! ## Concrete fixtures used by witnesses and counterexamples -/

def exStep1 : PlanStep :=
  { id := "a", content := "orig", status := none, originalIndex := 1 }

def exState1 : PlanState :=
  { steps := [exStep1], taskDescription := "task", lastModified := 0 }

def exStepA : PlanStep :=
  { id := "a", content := "first plan step content here", status := none, originalIndex := 1 }

def exStepB : PlanStep :=
  { id := "b", content := "second plan step content here", status := some .accepted, originalIndex := 2 }

def exStepC : PlanStep :=
  { id := "c", content := "third plan step content here", status := some .edited, originalIndex := 3 }

def exStateABC : PlanState :=
  { steps := [exStepA, exStepB, exStepC], taskDescription := "task", lastModified := 0 }

/-- A state containing a step whose id is the empty string (legal in the
`PlanStep` data type), exhibiting the JS truthiness edge of `addStep`. -/
def exStateEmptyId : PlanState :=
  { steps := [{ id := "", content := "x", status := none, originalIndex := 1 },
              { id := "b", content := "y", status := none, originalIndex := 2 }],
    taskDescription := "task", lastModified := 0 }

/-! ## Helper lemmas -/

theorem uif_length (i : Nat) (l : List PlanStep) :
    (updateStepIndicesFrom i l).length = l.length := by
  induction l generalizing i with
  | nil => rfl
  | cons s rest ih => simp [updateStepIndicesFrom, ih]

theorem uif_get_originalIndex (l : List PlanStep) (i k : Nat)
    (h : k < (updateStepIndicesFrom i l).length) :
    ((updateStepIndicesFrom i l).get ⟨k, h⟩).originalIndex = (i : Int) + k + 1 := by
  induction l generalizing i k with
  | nil => simp [updateStepIndicesFrom] at h
  | cons s rest ih =>
    cases k with
    | zero => simp [updateStepIndicesFrom]
    | succ k =>
      have h' : k < (updateStepIndicesFrom (i + 1) rest).length := by
        simpa [updateStepIndicesFrom] using h
      have := ih (i + 1) k h'
      simp only [updateStepIndicesFrom, List.get_cons_succ, this]
      push_cast
      ring

theorem indicesOK_updateStepIndices (l : List PlanStep) :
    indicesOK (updateStepIndices l) := by
  intro k h
  have := uif_get_originalIndex l 0 k h
  simpa [updateStepIndices] using this

theorem uif_map_id (i : Nat) (l : List PlanStep) :
    (updateStepIndicesFrom i l).map (fun s => s.id) = l.map (fun s => s.id) := by
  induction l generalizing i with
  | nil => rfl
  | cons s rest ih => simp [updateStepIndicesFrom, ih]

theorem uif_mem (i : Nat) (l : List PlanStep) (s' : PlanStep)
    (h : s' ∈ updateStepIndicesFrom i l) :
    ∃ s ∈ l, s'.id = s.id ∧ s'.content = s.content ∧ s'.status = s.status := by
  induction l generalizing i with
  | nil => simp [updateStepIndicesFrom] at h
  | cons s rest ih =>
    simp only [updateStepIndicesFrom, List.mem_cons] at h
    rcases h with h | h
    · exact ⟨s, List.mem_cons_self s rest, by simp [h]⟩
    · obtain ⟨t, ht, h1, h2, h3⟩ := ih (i + 1) h
      exact ⟨t, List.mem_cons_of_mem s ht, h1, h2, h3⟩

theorem modifyFirst_map_id (p : PlanStep → Bool) (f : PlanStep → PlanStep)
    (hf : ∀ s, (f s).id = s.id) (l : List PlanStep) :
    (modifyFirst p f l).map (fun s => s.id) = l.map (fun s => s.id) := by
  induction l with
  | nil => rfl
  | cons s rest ih =>
    by_cases h : p s
    · simp [modifyFirst, h, hf]
    · simp [modifyFirst, h, ih]

theorem find?_modifyFirst (p : PlanStep → Bool) (f : PlanStep → PlanStep)
    (hf : ∀ s, p (f s) = p s) (l : List PlanStep) :
    (modifyFirst p f l).find? p = (l.find? p).map f := by
  induction l with
  | nil => rfl
  | cons s rest ih =>
    by_cases h : p s
    · simp [modifyFirst, h, List.find?_cons, hf]
    · simp [modifyFirst, h, List.find?_cons, ih]

/-- Shape of every dispatch outcome: a silent no-op, a mutation followed by
a `stateUpdated` broadcast, or (for `rejectStep`) the optimistic
`updateStepStatus` followed by `stateUpdated`; every mutation stamps
`lastModified := now`. -/
theorem handleMessage_shape (freshId : String) (now : Nat) (msg : PlanMessage) (st : PlanState) :
    handleMessage freshId now msg st = (st, []) ∨
    (∃ st', handleMessage freshId now msg st = (st', [.stateUpdated st']) ∧
      st'.lastModified = now) ∨
    (∃ st' id, handleMessage freshId now msg st =
        (st', [.updateStepStatus id .refining, .stateUpdated st']) ∧
      st'.lastModified = now) := by
  cases msg with
  | acceptStep id =>
    cases h : st.steps.find? (fun s => s.id = id) with
    | none => left; simp [handleMessage, h]
    | some s =>
      right; left
      exact ⟨{ st with
          steps := modifyFirst (fun t => t.id = id)
            (fun t => { t with status := some .accepted }) st.steps,
          lastModified := now }, by simp [handleMessage, h], rfl⟩
  | rejectStep id =>
    cases h : st.steps.find? (fun s => s.id = id) with
    | none => left; simp [handleMessage, h]
    | some s =>
      right; right
      exact ⟨{ st with
          steps := modifyFirst (fun t => t.id = id)
            (fun t => { t with status := some .rejected }) st.steps,
          lastModified := now }, id, by simp [handleMessage, h], rfl⟩
  | editStep id content =>
    cases h : st.steps.find? (fun s => s.id = id) with
    | none => left; simp [handleMessage, h]
    | some s =>
      by_cases hc : s.content = content
      · left; simp [handleMessage, h, hc]
      · right; left
        exact ⟨{ st with
            steps := modifyFirst (fun t => t.id = id)
              (fun t => { t with content := content, status := some .edited }) st.steps,
            lastModified := now }, by simp [handleMessage, h, hc], rfl⟩
  | reorderSteps newOrder =>
    right; left
    exact ⟨{ st with
        steps := updateStepIndices
          (newOrder.filterMap (fun id => st.steps.find? (fun s => s.id = id))),
        lastModified := now }, by simp [handleMessage], rfl⟩
  | deleteStep id =>
    right; left
    exact ⟨{ st with
        steps := updateStepIndices (st.steps.filter (fun s => ¬ s.id = id)),
        lastModified := now }, by simp [handleMessage], rfl⟩
  | addStep afterId content =>
    right; left
    exact ⟨(handleMessage freshId now (.addStep afterId content) st).1, rfl, rfl⟩
  | savePlan => left; simp [handleMessage]
  | sendToCopilotChat content => left; simp [handleMessage]

theorem cleanMarkdown_fallback :
    cleanMarkdown "Failed to refine step." = "Failed to refine step." := by decide

theorem refineStep_err (e o : String) (a : List String) (i : Nat) (t p : String) :
    refineStep (fun _ _ => GenResult.err e) o a i t p =
      "Error generating alternative: " ++ e := rfl

/-! ## C9: refineStep error handling -/

/-- C9: `refineStep` is total over the call's outcomes: a thrown error with
message `e` (caught by the try/catch) yields exactly
`"Error generating alternative: " ++ e`; a successful call yields the
markdown-cleaned trimmed content, or `"Failed to refine step."` when the
content is missing or trims to the empty string. -/
theorem claim_C9 (oracle : String → String → GenResult) (o : String) (a : List String)
    (i : Nat) (t p : String) :
    (∀ e, oracle refineSystemPrompt (refineUserPrompt o a i t p) = .err e →
      refineStep oracle o a i t p = "Error generating alternative: " ++ e) ∧
    (∀ c, oracle refineSystemPrompt (refineUserPrompt o a i t p) = .ok (some c) →
      (jsTrimS c ≠ "" → refineStep oracle o a i t p = cleanMarkdown (jsTrimS c)) ∧
      (jsTrimS c = "" → refineStep oracle o a i t p = "Failed to refine step.")) ∧
    (oracle refineSystemPrompt (refineUserPrompt o a i t p) = .ok none →
      refineStep oracle o a i t p = "Failed to refine step.") := by
  refine ⟨?_, ?_, ?_⟩
  · intro e he
    simp [refineStep, he]
  · intro c hc
    constructor
    · intro hne
      simp [refineStep, hc, hne]
    · intro heq
      simpa [refineStep, hc, heq] using cleanMarkdown_fallback
  · intro hnone
    simpa [refineStep, hnone] using cleanMarkdown_fallback

theorem claim_C9_witness :
    refineStep (fun _ _ => GenResult.err "boom") "o" [] 0 "t" "p" =
      "Error generating alternative: boom" :=
  (claim_C9 (fun _ _ => GenResult.err "boom") "o" [] 0 "t" "p").1 "boom" rfl

/-! ## C3: reject-flow failure path -/

/-- C3 counterexample: on a failed refine call the step's status does NOT
stay `rejected` — the asynchronous tail marks it `edited` unconditionally
(extension.ts line 223), so the claim "status is left as-is" is false. -/
theorem claim_C3_counterexample :
    ((rejectRefineTail "a"
        (refineStep (fun _ _ => GenResult.err "boom") "orig" ["orig"] 0 "task" "ctx") 2
        ((handleMessage "f" 1 (.rejectStep "a") exState1).1)).1.steps.map
        (fun s => s.status) = [some Status.edited]) ∧
    some Status.edited ≠ some Status.rejected := by decide

/-- C3 amended: when the refine call triggered by `reject(id)` fails, the
step's content is replaced by the human-readable error-description text
`"Error generating alternative: " ++ e` and its status is set to `edited`
— the same terminal status as the success path — not left as `rejected`. -/
theorem claim_C3 (st : PlanState) (id e : String) (n1 n2 : Nat) (f o t p : String)
    (a : List String) (i : Nat) (s₀ : PlanStep)
    (hfind : st.steps.find? (fun s => s.id = id) = some s₀) :
    (rejectRefineTail id (refineStep (fun _ _ => GenResult.err e) o a i t p) n2
        ((handleMessage f n1 (.rejectStep id) st).1)).1.steps.find? (fun s => s.id = id) =
      some { s₀ with content := "Error generating alternative: " ++ e,
                     status := some Status.edited } := by
  have h1 : (handleMessage f n1 (.rejectStep id) st).1.steps =
      modifyFirst (fun s => s.id = id)
        (fun s => { s with status := some Status.rejected }) st.steps := by
    simp [handleMessage, hfind]
  rw [refineStep_err]
  have h2 : (rejectRefineTail id ("Error generating alternative: " ++ e) n2
        ((handleMessage f n1 (.rejectStep id) st).1)).1.steps =
      modifyFirst (fun s => s.id = id)
        (fun s => { s with content := "Error generating alternative: " ++ e, status := some Status.edited })
        ((handleMessage f n1 (.rejectStep id) st).1).steps := rfl
  rw [h2, h1,
    find?_modifyFirst (fun s => s.id = id)
      (fun s => { s with content := "Error generating alternative: " ++ e, status := some Status.edited })
      (fun _ => rfl),
    find?_modifyFirst (fun s => s.id = id)
      (fun s => { s with status := some Status.rejected })
      (fun _ => rfl),
    hfind]
  rfl

theorem claim_C3_witness :
    (rejectRefineTail "a" (refineStep (fun _ _ => GenResult.err "quota") "o" [] 0 "t" "p") 2
        ((handleMessage "f" 1 (.rejectStep "a") exState1).1)).1.steps.find?
        (fun s => s.id = "a") =
      some { exStep1 with content := "Error generating alternative: quota",
                          status := some Status.edited } :=
  claim_C3 exState1 "a" "quota" 1 2 "f" "o" "t" "p" [] 0 exStep1 (by decide)

/-! ## C6: intents with a missing id -/

/-- C6 counterexample: `deleteStep` with an id not present in the plan is
NOT a silent no-op — the handler unconditionally sets `updated = true`, so
`lastModified` is refreshed (0 becomes 5 here) and a `stateUpdated`
broadcast is posted. -/
theorem claim_C6_counterexample :
    "zzz" ∉ exState1.steps.map (fun s => s.id) ∧
    exState1.lastModified = 0 ∧
    (handleMessage "f" 5 (.deleteStep "zzz") exState1).1.lastModified = 5 ∧
    (handleMessage "f" 5 (.deleteStep "zzz") exState1).2 ≠ [] := by decide

/-- C6 amended: `accept`, `reject` and `edit` on a missing id are silent
no-ops (state identical, no broadcast, no error); `delete` on a missing id
leaves the step-id sequence unchanged (only recomputing display indices)
but still refreshes `lastModified` and posts a `stateUpdated` broadcast.
No case raises an error. -/
theorem claim_C6 (st : PlanState) (id f c : String) (n : Nat)
    (hmem : id ∉ st.steps.map (fun s => s.id)) :
    handleMessage f n (.acceptStep id) st = (st, []) ∧
    handleMessage f n (.rejectStep id) st = (st, []) ∧
    handleMessage f n (.editStep id c) st = (st, []) ∧
    (handleMessage f n (.deleteStep id) st).1.steps.map (fun s => s.id) =
      st.steps.map (fun s => s.id) ∧
    (handleMessage f n (.deleteStep id) st).1.lastModified = n ∧
    (handleMessage f n (.deleteStep id) st).2 =
      [.stateUpdated (handleMessage f n (.deleteStep id) st).1] := by
  have hfind : st.steps.find? (fun s => s.id = id) = none := by
    rw [List.find?_eq_none]
    intro x hx
    simp only [decide_eq_true_eq]
    exact fun heq => hmem (List.mem_map.mpr ⟨x, hx, heq⟩)
  have hfilter : st.steps.filter (fun s => ¬ s.id = id) = st.steps := by
    rw [List.filter_eq_self]
    intro s hs
    have hne : s.id ≠ id := fun heq => hmem (List.mem_map.mpr ⟨s, hs, heq⟩)
    simp [hne]
  refine ⟨?_, ?_, ?_, ?_, rfl, rfl⟩
  · simp [handleMessage, hfind]
  · simp [handleMessage, hfind]
  · simp [handleMessage, hfind]
  · show (updateStepIndices (st.steps.filter (fun s => ¬ s.id = id))).map (fun s => s.id) =
        st.steps.map (fun s => s.id)
    rw [hfilter]
    exact uif_map_id 0 st.steps

theorem claim_C6_witness :
    handleMessage "f" 3 (.acceptStep "zzz") exState1 = (exState1, []) ∧
    (handleMessage "f" 3 (.deleteStep "zzz") exState1).1.lastModified = 3 :=
  ⟨(claim_C6 exState1 "zzz" "f" "c" 3 (by decide)).1,
   (claim_C6 exState1 "zzz" "f" "c" 3 (by decide)).2.2.2.2.1⟩

/-! ## C5: no-op edit and the broadcast discipline -/

/-- C5: an `edit` whose content equals the step's current content leaves
the whole `PlanState` untouched (including `lastModified`) and posts no
broadcast at all; and conversely any dispatch that changes the state
stamps `lastModified := now` and posts a `stateUpdated` broadcast carrying
the new state. -/
theorem claim_C5 :
    (∀ (f : String) (n : Nat) (st : PlanState) (id c : String) (s₀ : PlanStep),
      st.steps.find? (fun s => s.id = id) = some s₀ → s₀.content = c →
      handleMessage f n (.editStep id c) st = (st, [])) ∧
    (∀ (f : String) (n : Nat) (msg : PlanMessage) (st : PlanState),
      (handleMessage f n msg st).1 ≠ st →
      (handleMessage f n msg st).1.lastModified = n ∧
      Broadcast.stateUpdated (handleMessage f n msg st).1 ∈ (handleMessage f n msg st).2) := by
  constructor
  · intro f n st id c s₀ hfind hc
    simp [handleMessage, hfind, hc]
  · intro f n msg st hne
    rcases handleMessage_shape f n msg st with h | ⟨st', heq, hlm⟩ | ⟨st', i, heq, hlm⟩
    · exact absurd (congrArg Prod.fst h) hne
    · rw [heq]
      exact ⟨hlm, by simp⟩
    · rw [heq]
      exact ⟨hlm, by simp⟩

theorem claim_C5_witness :
    handleMessage "f" 9 (.editStep "a" "orig") exState1 = (exState1, []) ∧
    (handleMessage "f" 7 (.acceptStep "a") exState1).1.lastModified = 7 :=
  ⟨claim_C5.1 "f" 9 exState1 "a" "orig" exStep1 (by decide) rfl,
   (claim_C5.2 "f" 7 (.acceptStep "a") exState1 (by decide)).1⟩

/-! ## addStep helper lemmas -/

theorem findIdxOf_lt_length (id : String) (l : List PlanStep) (i : Nat)
    (h : findIdxOf id l = some i) : i < l.length := by
  induction l generalizing i with
  | nil => simp [findIdxOf] at h
  | cons s rest ih =>
    by_cases hs : s.id = id
    · simp only [findIdxOf, if_pos hs, Option.some.injEq] at h
      simp only [List.length_cons]
      omega
    · simp only [findIdxOf, if_neg hs] at h
      cases hrec : findIdxOf id rest with
      | none => rw [hrec] at h; simp at h
      | some j =>
        rw [hrec] at h
        simp only [Option.map_some', Option.some.injEq] at h
        have := ih j hrec
        simp only [List.length_cons]
        omega

theorem addPos_le (st : PlanState) (afterId : Option String) :
    addPos st afterId ≤ st.steps.length := by
  cases afterId with
  | none => simp [addPos]
  | some a =>
    by_cases ha : a ≠ ""
    · simp only [addPos, if_pos ha]
      cases h : findIdxOf a st.steps with
      | none => simp
      | some i => exact findIdxOf_lt_length a st.steps i h
    · simp [addPos, ha]

theorem uif_get? (i : Nat) (l : List PlanStep) (k : Nat) :
    (updateStepIndicesFrom i l).get? k =
      (l.get? k).map (fun s => { s with originalIndex := (i : Int) + k + 1 }) := by
  induction l generalizing i k with
  | nil => simp [updateStepIndicesFrom]
  | cons s rest ih =>
    cases k with
    | zero => simp [updateStepIndicesFrom]
    | succ k =>
      simp only [updateStepIndicesFrom, List.get?_cons_succ, ih (i + 1) k]
      cases rest.get? k with
      | none => rfl
      | some t =>
        simp only [Option.map_some', Option.some.injEq]
        have : (i : Int) + 1 + k + 1 = (i : Int) + (k + 1) + 1 := by omega
        simp [this]

/-- The step list produced by the `addStep` branch, for every shape of
`afterId`, is an insertion of the new step at position `addPos`. -/
theorem addStep_steps (st : PlanState) (afterId : Option String) (content f : String) (n : Nat) :
    (handleMessage f n (.addStep afterId content) st).1.steps =
      updateStepIndices
        (st.steps.take (addPos st afterId) ++
          { id := f, content := content, status := some Status.edited, originalIndex := -1 } ::
            st.steps.drop (addPos st afterId)) := by
  have happend : st.steps ++
      [{ id := f, content := content, status := some Status.edited, originalIndex := -1 }] =
      st.steps.take st.steps.length ++
        ({ id := f, content := content, status := some Status.edited, originalIndex := -1 } : PlanStep) ::
          st.steps.drop st.steps.length := by
    simp
  cases afterId with
  | none =>
    have h1 : (handleMessage f n (.addStep none content) st).1.steps =
        updateStepIndices (st.steps ++
          [{ id := f, content := content, status := some Status.edited, originalIndex := -1 }]) := rfl
    have h2 : addPos st none = st.steps.length := rfl
    rw [h1, h2, happend]
  | some a =>
    by_cases ha : a ≠ ""
    · cases h : findIdxOf a st.steps with
      | none =>
        have h1 : (handleMessage f n (.addStep (some a) content) st).1.steps =
            updateStepIndices (st.steps ++
              [{ id := f, content := content, status := some Status.edited, originalIndex := -1 }]) := by
          simp [handleMessage, ha, h]
        have h2 : addPos st (some a) = st.steps.length := by
          simp [addPos, ha, h]
        rw [h1, h2, happend]
      | some i =>
        have h1 : (handleMessage f n (.addStep (some a) content) st).1.steps =
            updateStepIndices (st.steps.take (i + 1) ++
              ({ id := f, content := content, status := some Status.edited, originalIndex := -1 } : PlanStep) ::
                st.steps.drop (i + 1)) := by
          simp [handleMessage, ha, h]
        have h2 : addPos st (some a) = i + 1 := by
          simp [addPos, ha, h]
        rw [h1, h2]
    · have h1 : (handleMessage f n (.addStep (some a) content) st).1.steps =
          updateStepIndices (st.steps ++
            [{ id := f, content := content, status := some Status.edited, originalIndex := -1 }]) := by
        simp [handleMessage, ha]
      have h2 : addPos st (some a) = st.steps.length := by
        simp [addPos, ha]
      rw [h1, h2, happend]

theorem insertAt_map_id (l : List PlanStep) (x : PlanStep) (p : Nat) :
    (updateStepIndices (l.take p ++ x :: l.drop p)).map (fun s => s.id) =
      (l.map (fun s => s.id)).take p ++ x.id :: (l.map (fun s => s.id)).drop p := by
  rw [updateStepIndices, uif_map_id]
  simp [List.map_take, List.map_drop]

theorem insertAt_get? (l : List PlanStep) (x : PlanStep) (p : Nat) (hp : p ≤ l.length) :
    (updateStepIndices (l.take p ++ x :: l.drop p)).get? p =
      some { x with originalIndex := (p : Int) + 1 } := by
  rw [updateStepIndices, uif_get?]
  have hlen : (l.take p).length = p := by
    simp only [List.length_take]
    omega
  rw [List.get?_append_right (le_of_eq hlen)]
  simp [hlen]

theorem insertAt_length (l : List PlanStep) (x : PlanStep) (p : Nat) (hp : p ≤ l.length) :
    (updateStepIndices (l.take p ++ x :: l.drop p)).length = l.length + 1 := by
  rw [updateStepIndices, uif_length]
  simp only [List.length_append, List.length_cons, List.length_take, List.length_drop]
  omega

/-! ## C7: addStep placement -/

/-- C7 counterexample: `if (message.afterId)` is a JS truthiness test, so
with `afterId = ""` naming an existing step (at position 0 of
`exStateEmptyId`) the new step is appended at the end (ids
`["", "b", "f"]`) instead of being placed immediately after that step
(which would give `["", "f", "b"]`). -/
theorem claim_C7_counterexample :
    (handleMessage "f" 1 (.addStep (some "") "z") exStateEmptyId).1.steps.map (fun s => s.id) =
      ["", "b", "f"] ∧
    (handleMessage "f" 1 (.addStep (some "") "z") exStateEmptyId).1.steps.map (fun s => s.id) ≠
      ["", "f", "b"] := by decide

/-- C7 amended: `add(afterId, content)` inserts exactly one new step with
the given content, status `edited` and the fresh id, at position
`addPos st afterId` — immediately after the step `afterId` names when
`afterId` is truthy (non-null and non-empty) and present, and at the end
when `afterId` is null, the empty string, or matches no existing step —
after which display indices are recomputed for all steps, `lastModified`
is refreshed and a `stateUpdated` broadcast is posted. -/
theorem claim_C7 (st : PlanState) (afterId : Option String) (content f : String) (n : Nat) :
    ((handleMessage f n (.addStep afterId content) st).1.steps.map (fun s => s.id) =
      (st.steps.map (fun s => s.id)).take (addPos st afterId) ++
        f :: (st.steps.map (fun s => s.id)).drop (addPos st afterId)) ∧
    ((handleMessage f n (.addStep afterId content) st).1.steps.get? (addPos st afterId) =
      some { id := f, content := content, status := some Status.edited,
             originalIndex := (addPos st afterId : Int) + 1 }) ∧
    ((handleMessage f n (.addStep afterId content) st).1.steps.length = st.steps.length + 1) ∧
    indicesOK (handleMessage f n (.addStep afterId content) st).1.steps ∧
    ((handleMessage f n (.addStep afterId content) st).2 =
      [.stateUpdated (handleMessage f n (.addStep afterId content) st).1]) ∧
    ((handleMessage f n (.addStep afterId content) st).1.lastModified = n) := by
  refine ⟨?_, ?_, ?_, ?_, rfl, rfl⟩
  · rw [addStep_steps st afterId content f n, insertAt_map_id]
  · rw [addStep_steps st afterId content f n]
    exact insertAt_get? st.steps _ _ (addPos_le st afterId)
  · rw [addStep_steps st afterId content f n]
    exact insertAt_length st.steps _ _ (addPos_le st afterId)
  · exact indicesOK_updateStepIndices _

/-! ## C8: id stability -/

theorem filter_map_id (l : List PlanStep) (id : String) :
    (l.filter (fun s => ¬ s.id = id)).map (fun s => s.id) =
      (l.map (fun s => s.id)).filter (fun x => ¬ x = id) := by
  induction l with
  | nil => rfl
  | cons s rest ih =>
    by_cases h : s.id = id <;> simpa [List.filter_cons, h] using ih

/-- C8: `edit`, `accept` and `reject` leave the id sequence of the plan
unchanged; `delete` of a present id (under the no-duplicate-ids invariant)
removes exactly that one id; `add` with a fresh id yields exactly the old
ids plus the one new id. -/
theorem claim_C8 :
    (∀ (f : String) (n : Nat) (st : PlanState) (id : String),
      (handleMessage f n (.acceptStep id) st).1.steps.map (fun s => s.id) =
        st.steps.map (fun s => s.id)) ∧
    (∀ (f : String) (n : Nat) (st : PlanState) (id : String),
      (handleMessage f n (.rejectStep id) st).1.steps.map (fun s => s.id) =
        st.steps.map (fun s => s.id)) ∧
    (∀ (f : String) (n : Nat) (st : PlanState) (id c : String),
      (handleMessage f n (.editStep id c) st).1.steps.map (fun s => s.id) =
        st.steps.map (fun s => s.id)) ∧
    (∀ (f : String) (n : Nat) (st : PlanState) (id : String),
      (st.steps.map (fun s => s.id)).Nodup →
      id ∈ st.steps.map (fun s => s.id) →
      (handleMessage f n (.deleteStep id) st).1.steps.map (fun s => s.id) =
        (st.steps.map (fun s => s.id)).erase id) ∧
    (∀ (f : String) (n : Nat) (st : PlanState) (afterId : Option String) (c : String),
      f ∉ st.steps.map (fun s => s.id) →
      List.Perm ((handleMessage f n (.addStep afterId c) st).1.steps.map (fun s => s.id))
        (f :: st.steps.map (fun s => s.id))) := by
  refine ⟨?_, ?_, ?_, ?_, ?_⟩
  · intro f n st id
    cases hfind : st.steps.find? (fun s => s.id = id) with
    | none => simp [handleMessage, hfind]
    | some s =>
      have h1 : (handleMessage f n (.acceptStep id) st).1.steps =
          modifyFirst (fun s => s.id = id)
            (fun s => { s with status := some Status.accepted }) st.steps := by
        simp [handleMessage, hfind]
      rw [h1]
      exact modifyFirst_map_id (fun s => s.id = id)
        (fun s => { s with status := some Status.accepted }) (fun _ => rfl) st.steps
  · intro f n st id
    cases hfind : st.steps.find? (fun s => s.id = id) with
    | none => simp [handleMessage, hfind]
    | some s =>
      have h1 : (handleMessage f n (.rejectStep id) st).1.steps =
          modifyFirst (fun s => s.id = id)
            (fun s => { s with status := some Status.rejected }) st.steps := by
        simp [handleMessage, hfind]
      rw [h1]
      exact modifyFirst_map_id (fun s => s.id = id)
        (fun s => { s with status := some Status.rejected }) (fun _ => rfl) st.steps
  · intro f n st id c
    cases hfind : st.steps.find? (fun s => s.id = id) with
    | none => simp [handleMessage, hfind]
    | some s =>
      by_cases hc : s.content = c
      · simp [handleMessage, hfind, hc]
      · have h1 : (handleMessage f n (.editStep id c) st).1.steps =
            modifyFirst (fun s => s.id = id)
              (fun s => { s with content := c, status := some Status.edited }) st.steps := by
          simp [handleMessage, hfind, hc]
        rw [h1]
        exact modifyFirst_map_id (fun s => s.id = id)
          (fun s => { s with content := c, status := some Status.edited }) (fun _ => rfl) st.steps
  · intro f n st id hnd _hmem
    show (updateStepIndices (st.steps.filter (fun s => ¬ s.id = id))).map (fun s => s.id) = _
    rw [updateStepIndices, uif_map_id, filter_map_id, List.Nodup.erase_eq_filter hnd]
    exact (List.filter_congr (fun x _ => by by_cases h : x = id <;> simp [h])).symm
  · intro f n st afterId c _hf
    rw [addStep_steps st afterId c f n, insertAt_map_id]
    have hperm := @List.perm_middle String f
      ((st.steps.map (fun s => s.id)).take (addPos st afterId))
      ((st.steps.map (fun s => s.id)).drop (addPos st afterId))
    rw [List.take_append_drop] at hperm
    exact hperm

theorem claim_C8_witness :
    (handleMessage "f" 4 (.acceptStep "a") exStateABC).1.steps.map (fun s => s.id) =
      exStateABC.steps.map (fun s => s.id) ∧
    (handleMessage "f" 4 (.deleteStep "b") exStateABC).1.steps.map (fun s => s.id) =
      (exStateABC.steps.map (fun s => s.id)).erase "b" ∧
    List.Perm ((handleMessage "f" 4 (.addStep none "new step") exStateABC).1.steps.map
      (fun s => s.id)) ("f" :: exStateABC.steps.map (fun s => s.id)) :=
  ⟨claim_C8.1 "f" 4 exStateABC "a",
   claim_C8.2.2.2.1 "f" 4 exStateABC "b" (by decide) (by decide),
   claim_C8.2.2.2.2 "f" 4 exStateABC none "new step" (by decide)⟩

/-! ## C1: display-index invariant -/

theorem structural_indicesOK (f : String) (n : Nat) (msg : PlanMessage) (st : PlanState)
    (h : isStructural msg = true) :
    indicesOK (handleMessage f n msg st).1.steps := by
  cases msg with
  | reorderSteps newOrder => exact indicesOK_updateStepIndices _
  | deleteStep id => exact indicesOK_updateStepIndices _
  | addStep afterId content => exact indicesOK_updateStepIndices _
  | acceptStep id => simp [isStructural] at h
  | rejectStep id => simp [isStructural] at h
  | editStep id content => simp [isStructural] at h
  | savePlan => simp [isStructural] at h
  | sendToCopilotChat content => simp [isStructural] at h

/-- C1: after any non-empty sequence of `add`/`delete`/`reorder` intents,
the step at 0-based position `k` carries `originalIndex = k + 1` — each of
these three handlers ends in `updateStepIndices`, which re-establishes the
invariant regardless of the prior state. -/
theorem claim_C1 (l : List (String × Nat × PlanMessage)) (st : PlanState)
    (hne : l ≠ []) (hall : ∀ x ∈ l, isStructural x.2.2 = true) :
    indicesOK (applySeq l st).steps := by
  induction l generalizing st with
  | nil => exact absurd rfl hne
  | cons x xs ih =>
    by_cases hxs : xs = []
    · subst hxs
      exact structural_indicesOK x.1 x.2.1 x.2.2 st (hall x (List.mem_cons_self _ _))
    · have hstep : applySeq (x :: xs) st = applySeq xs ((handleMessage x.1 x.2.1 x.2.2 st).1) :=
        rfl
      rw [hstep]
      exact ih _ hxs (fun y hy => hall y (List.mem_cons_of_mem _ hy))

theorem claim_C1_witness :
    indicesOK (applySeq
      [("f1", 1, .addStep none "added step"), ("f2", 2, .deleteStep "a"),
       ("f3", 3, .reorderSteps ["c", "b"])] exStateABC).steps :=
  claim_C1
    [("f1", 1, .addStep none "added step"), ("f2", 2, .deleteStep "a"),
     ("f3", 3, .reorderSteps ["c", "b"])] exStateABC (by decide) (by decide)

/-! ## C4: reorder semantics -/

theorem filterMap_find?_map_id (steps : List PlanStep) (newOrder : List String) :
    (newOrder.filterMap (fun id => steps.find? (fun s => s.id = id))).map (fun s => s.id) =
      newOrder.filter (fun id => steps.any (fun s => s.id = id)) := by
  induction newOrder with
  | nil => rfl
  | cons a rest ih =>
    cases h : steps.find? (fun s => s.id = a) with
    | none =>
      have hany : steps.any (fun s => s.id = a) = false := by
        rw [List.any_eq_false]
        exact List.find?_eq_none.mp h
      simp [List.filterMap_cons, h, List.filter_cons, hany, ih]
    | some s =>
      have hid : s.id = a := by
        have := List.find?_some h
        simpa using this
      have hany : steps.any (fun s => s.id = a) = true := by
        rw [List.any_eq_true]
        exact ⟨s, List.mem_of_find?_eq_some h, by simp [hid]⟩
      simp [List.filterMap_cons, h, List.filter_cons, hany, ih, hid]

/-- C4: `reorder(newIdOrder)` rebuilds the step list by looking each id of
`newIdOrder` up in the current steps in order — so the resulting id
sequence is exactly `newIdOrder` restricted to ids present in the plan
(absent ids are silently dropped), every resulting step is one of the
previous steps (same id, content and status), display indices are
recomputed, and the concrete full permutation `[c,a,b]` of three steps
yields order `[c,a,b]` with indices `[1,2,3]`. -/
theorem claim_C4 :
    (∀ (f : String) (n : Nat) (st : PlanState) (newOrder : List String),
      (handleMessage f n (.reorderSteps newOrder) st).1.steps.map (fun s => s.id) =
        newOrder.filter (fun id => st.steps.any (fun s => s.id = id))) ∧
    (∀ (f : String) (n : Nat) (st : PlanState) (newOrder : List String),
      ∀ s' ∈ (handleMessage f n (.reorderSteps newOrder) st).1.steps,
        ∃ s ∈ st.steps, s'.id = s.id ∧ s'.content = s.content ∧ s'.status = s.status) ∧
    (∀ (f : String) (n : Nat) (st : PlanState) (newOrder : List String),
      indicesOK (handleMessage f n (.reorderSteps newOrder) st).1.steps) ∧
    ((handleMessage "f" 1 (.reorderSteps ["c", "a", "b"]) exStateABC).1.steps.map
        (fun s => s.id) = ["c", "a", "b"] ∧
      (handleMessage "f" 1 (.reorderSteps ["c", "a", "b"]) exStateABC).1.steps.map
        (fun s => s.originalIndex) = [1, 2, 3]) := by
  refine ⟨?_, ?_, ?_, by decide⟩
  · intro f n st newOrder
    show (updateStepIndices
        (newOrder.filterMap (fun id => st.steps.find? (fun s => s.id = id)))).map
          (fun s => s.id) = _
    rw [updateStepIndices, uif_map_id, filterMap_find?_map_id]
  · intro f n st newOrder s' hs'
    have hs'' : s' ∈ updateStepIndicesFrom 0
        (newOrder.filterMap (fun id => st.steps.find? (fun s => s.id = id))) := hs'
    obtain ⟨t, ht, h1, h2, h3⟩ := uif_mem 0 _ s' hs''
    obtain ⟨a, _, hfind⟩ := List.mem_filterMap.mp ht
    exact ⟨t, List.mem_of_find?_eq_some hfind, h1, h2, h3⟩
  · intro f n st newOrder
    exact indicesOK_updateStepIndices _

theorem claim_C4_witness :
    ∃ s ∈ exStateABC.steps,
      ({ exStepC with originalIndex := 1 } : PlanStep).id = s.id ∧
      ({ exStepC with originalIndex := 1 } : PlanStep).content = s.content ∧
      ({ exStepC with originalIndex := 1 } : PlanStep).status = s.status :=
  claim_C4.2.1 "f" 1 exStateABC ["c", "a", "b"] { exStepC with originalIndex := 1 } (by decide)

/-! ## C2: parser lemmas -/

theorem stepLabelSplit_not_s (c : Char) (l : List Char) (h : ¬ c.toLower = 's') :
    stepLabelSplit (c :: l) = none := by
  match l with
  | [] => rfl
  | [a] => rfl
  | [a, b] => rfl
  | a :: b :: d :: r => simp [stepLabelSplit, h]

theorem splitSectionsAux_no_label (xs : List Char) (ys : List Char)
    (h : ∀ c ∈ xs, ¬ c.toLower = 's') (acc : List Char) :
    splitSectionsAux (xs ++ ys) acc = splitSectionsAux ys (xs.reverse ++ acc) := by
  induction xs generalizing acc with
  | nil => simp
  | cons c rest ih =>
    have hc : stepLabelSplit (c :: (rest ++ ys)) = none :=
      stepLabelSplit_not_s _ _ (h c (List.mem_cons_self _ _))
    have hstep : splitSectionsAux ((c :: rest) ++ ys) acc =
        splitSectionsAux (rest ++ ys) (c :: acc) := by
      simp [splitSectionsAux, hc]
    rw [hstep, ih (fun d hd => h d (List.mem_cons_of_mem _ hd)) (c :: acc)]
    simp

theorem trimR_append_ws (l : List Char) (c : Char) (h : isWS c = true) :
    trimR (l ++ [c]) = trimR l := by
  induction l with
  | nil => simp [trimR, h]
  | cons x xs ih => simp [trimR, ih]

theorem trimR_cons (c : Char) (l : List Char) :
    trimR (c :: l) = if (trimR l = [] && isWS c) then [] else c :: trimR l := rfl

theorem trimR_eq_self (l : List Char) (h : ∀ c, l.getLast? = some c → isWS c = false) :
    trimR l = l := by
  induction l with
  | nil => rfl
  | cons x xs ih =>
    by_cases hxs : xs = []
    · subst hxs
      have hx := h x (by simp)
      rw [trimR_cons, show trimR ([] : List Char) = [] from rfl]
      simp [hx]
    · obtain ⟨y, ys, rfl⟩ := List.exists_cons_of_ne_nil hxs
      have h' : trimR (y :: ys) = y :: ys :=
        ih (fun c hc => h c (by rwa [List.getLast?_cons_cons]))
      rw [trimR_cons, h']
      simp

theorem getLast?_trimR_not_ws (l : List Char) :
    ∀ c, (trimR l).getLast? = some c → isWS c = false := by
  induction l with
  | nil => intro c hc; exact Option.noConfusion hc
  | cons x xs ih =>
    intro c hc
    rw [trimR_cons] at hc
    by_cases h1 : trimR xs = []
    · by_cases h2 : isWS x
      · rw [if_pos (by simp [h1, h2])] at hc
        simp at hc
      · rw [if_neg (by simp [h2]), h1] at hc
        simp only [List.getLast?_singleton, Option.some.injEq] at hc
        subst hc
        simpa using h2
    · rw [if_neg (by simp [h1])] at hc
      obtain ⟨y, ys, hy⟩ := List.exists_cons_of_ne_nil h1
      rw [hy, List.getLast?_cons_cons] at hc
      exact ih c (hy ▸ hc)

theorem trimR_idem (l : List Char) : trimR (trimR l) = trimR l :=
  trimR_eq_self _ (getLast?_trimR_not_ws l)

theorem head?_trimL_not_ws (l : List Char) :
    ∀ c, (trimL l).head? = some c → isWS c = false := by
  induction l with
  | nil => intro c hc; simp [trimL] at hc
  | cons x xs ih =>
    intro c hc
    by_cases hx : isWS x
    · rw [trimL, List.dropWhile_cons, if_pos hx] at hc
      exact ih c hc
    · rw [trimL, List.dropWhile_cons, if_neg hx] at hc
      simp at hc
      rcases hc with rfl
      simpa using hx

theorem trimL_idem (l : List Char) : trimL (trimL l) = trimL l := by
  induction l with
  | nil => rfl
  | cons x xs ih =>
    by_cases hx : isWS x
    · have h1 : trimL (x :: xs) = trimL xs := by
        rw [trimL, List.dropWhile_cons, if_pos hx]
        rfl
      rw [h1]
      exact ih
    · have h1 : trimL (x :: xs) = x :: xs := by
        rw [trimL, List.dropWhile_cons, if_neg hx]
      rw [h1]
      exact h1

theorem trimL_getLast? (l : List Char) :
    trimL l = [] ∨ (trimL l).getLast? = l.getLast? := by
  induction l with
  | nil => left; rfl
  | cons x xs ih =>
    by_cases hx : isWS x
    · rw [trimL, List.dropWhile_cons, if_pos hx]
      rcases ih with h | h
      · left; exact h
      · by_cases hxs : xs = []
        · left; simp [hxs, trimL]
        · right
          obtain ⟨y, ys, rfl⟩ := List.exists_cons_of_ne_nil hxs
          rw [List.getLast?_cons_cons]
          exact h
    · right
      rw [trimL, List.dropWhile_cons, if_neg hx]

theorem jsTrim_idem (l : List Char) : jsTrim (jsTrim l) = jsTrim l := by
  have htR : trimR (jsTrim l) = jsTrim l := by
    by_cases hY : jsTrim l = []
    · rw [hY]; rfl
    · apply trimR_eq_self
      intro c hc
      rcases trimL_getLast? (trimR l) with h | h
      · exact absurd h hY
      · exact getLast?_trimR_not_ws l c (h ▸ hc)
  show trimL (trimR (jsTrim l)) = jsTrim l
  rw [htR]
  show trimL (trimL (trimR l)) = trimL (trimR l)
  exact trimL_idem (trimR l)

theorem trimL_eq_self (l : List Char) (h : ∀ c, l.head? = some c → isWS c = false) :
    trimL l = l := by
  cases l with
  | nil => rfl
  | cons x xs =>
    have hx : isWS x = false := h x rfl
    rw [trimL, List.dropWhile_cons, if_neg (by simp [hx])]

/-- Trim of a section of the shape `pre ++ A` with a non-whitespace head of
`pre` and a trimmed non-empty tail `A`. -/
theorem jsTrim_pre_body (x : Char) (pre A : List Char) (hx : isWS x = false)
    (hA0 : A ≠ []) (hAl : ∀ c, A.getLast? = some c → isWS c = false) :
    jsTrim (x :: pre ++ A) = x :: pre ++ A := by
  have hlast : ∀ c, (x :: pre ++ A).getLast? = some c → isWS c = false := by
    intro c hc
    rw [List.getLast?_append] at hc
    obtain ⟨a, ha⟩ := Option.isSome_iff_exists.mp (by
      rw [List.getLast?_isSome]; exact hA0)
    rw [ha, show (some a).or ((x :: pre).getLast?) = some a from rfl] at hc
    have hac : a = c := Option.some.inj hc
    rw [← hac]
    exact hAl a ha
  show trimL (trimR (x :: pre ++ A)) = x :: pre ++ A
  rw [trimR_eq_self _ hlast]
  exact trimL_eq_self _ (fun c hc => by
    simp only [List.cons_append, List.head?_cons, Option.some.injEq] at hc
    rw [hc] at hx
    exact hx)

/-- Trim of the captured group: a single leading space before a trimmed
non-empty body. -/
theorem jsTrim_space_body (A : List Char) (hA0 : A ≠ [])
    (hAh : ∀ c, A.head? = some c → isWS c = false)
    (hAl : ∀ c, A.getLast? = some c → isWS c = false) :
    jsTrim (' ' :: A) = A := by
  have htR : trimR (' ' :: A) = ' ' :: A := by
    apply trimR_eq_self
    intro c hc
    obtain ⟨y, ys, rfl⟩ := List.exists_cons_of_ne_nil hA0
    rw [List.getLast?_cons_cons] at hc
    exact hAl c hc
  show trimL (trimR (' ' :: A)) = A
  rw [htR, trimL, List.dropWhile_cons, if_pos (by simp [isWS])]
  exact trimL_eq_self A hAh

theorem splitSectionsAux_start (c : Char) (r : List Char) :
    splitSectionsAux (c :: r) [] = splitSectionsAux r [c] := by
  simp [splitSectionsAux]

theorem splitSectionsAux_split (r acc : List Char)
    (h1 : (stepLabelSplit ('S' :: r)).isSome) (h2 : acc ≠ []) :
    splitSectionsAux ('S' :: r) acc = acc.reverse :: splitSectionsAux r ['S'] := by
  rw [splitSectionsAux, if_pos ⟨h1, h2⟩]

/-- Every string the parser returns passed the length guard and is a trim
fixed point. -/
theorem parseStepsL_sound (plan : List Char) :
    ∀ s ∈ parseStepsL plan, 20 < s.length ∧ jsTrim s = s := by
  intro s hs
  unfold parseStepsL at hs
  obtain ⟨sec, hsec, hproc⟩ := List.mem_filterMap.mp hs
  unfold processSection at hproc
  cases hsplit : stepLabelSplit (jsTrim sec) with
  | none =>
    simp only [hsplit] at hproc
    exact Option.noConfusion hproc
  | some rest =>
    simp only [hsplit] at hproc
    split at hproc
    · next hlen =>
      have hsrest : jsTrim rest = s := Option.some.inj hproc
      constructor
      · rw [← hsrest]; exact hlen
      · rw [← hsrest, jsTrim_idem]
    · exact Option.noConfusion hproc

theorem str_eta (s : String) : String.mk s.data = s := by
  cases s
  rfl

/-! ## C2: label occurrences inside a body cannot extend across the
section separator -/

theorem sls_bad2 (c1 c2 : Char) (l : List Char) (h : ¬ c2.toLower = 't') :
    stepLabelSplit (c1 :: c2 :: l) = none := by
  match l with
  | [] => rfl
  | [a] => rfl
  | a :: b :: r => simp [stepLabelSplit, h]

theorem sls_bad3 (c1 c2 c3 : Char) (l : List Char) (h : ¬ c3.toLower = 'e') :
    stepLabelSplit (c1 :: c2 :: c3 :: l) = none := by
  match l with
  | [] => rfl
  | a :: r => simp [stepLabelSplit, h]

theorem sls_bad4 (c1 c2 c3 c4 : Char) (l : List Char) (h : ¬ c4.toLower = 'p') :
    stepLabelSplit (c1 :: c2 :: c3 :: c4 :: l) = none := by
  simp [stepLabelSplit, h]

/-- The four-cons equation of `stepLabelSplit` with its lets inlined. -/
theorem sls_cons4 (c1 c2 c3 c4 : Char) (rest : List Char) :
    stepLabelSplit (c1 :: c2 :: c3 :: c4 :: rest) =
      if c1.toLower = 's' ∧ c2.toLower = 't' ∧ c3.toLower = 'e' ∧ c4.toLower = 'p' then
        (if rest.takeWhile isWS = [] then none
         else if (rest.dropWhile isWS).takeWhile isDigitC = [] then none
         else
           match (rest.dropWhile isWS).dropWhile isDigitC with
           | ':' :: r => some r
           | _ => none)
      else none := rfl

theorem takeWhile_append_of_drop_ne (p : Char → Bool) (l v : List Char)
    (h : l.dropWhile p ≠ []) :
    (l ++ v).takeWhile p = l.takeWhile p ∧ (l ++ v).dropWhile p = l.dropWhile p ++ v := by
  induction l with
  | nil => simp at h
  | cons c l' ih =>
    by_cases hc : p c = true
    · have h' : l'.dropWhile p ≠ [] := by
        rwa [List.dropWhile_cons, if_pos hc] at h
      obtain ⟨ht, hd⟩ := ih h'
      constructor
      · rw [List.cons_append, List.takeWhile_cons, if_pos hc, ht, List.takeWhile_cons, if_pos hc]
      · rw [List.cons_append, List.dropWhile_cons, if_pos hc, hd, List.dropWhile_cons, if_pos hc]
    · constructor
      · rw [List.cons_append, List.takeWhile_cons, if_neg hc, List.takeWhile_cons, if_neg hc]
      · rw [List.cons_append, List.dropWhile_cons, if_neg hc, List.dropWhile_cons, if_neg hc,
          List.cons_append]

theorem dropWhile_ne_nil_of_getLast (p : Char → Bool) (l : List Char) (hl : l ≠ [])
    (h : ∀ c, l.getLast? = some c → p c = false) : l.dropWhile p ≠ [] := by
  induction l with
  | nil => exact absurd rfl hl
  | cons c l' ih =>
    by_cases hl' : l' = []
    · subst hl'
      have hc := h c (by simp)
      rw [List.dropWhile_cons, if_neg (by simp [hc])]
      simp
    · rw [List.dropWhile_cons]
      by_cases hc : p c = true
      · rw [if_pos hc]
        exact ih hl' (fun d hd => h d (by
          obtain ⟨y, ys, rfl⟩ := List.exists_cons_of_ne_nil hl'
          rwa [List.getLast?_cons_cons]))
      · rw [if_neg hc]
        simp

theorem takeWhile_append_of_drop_nil (p : Char → Bool) (l v : List Char)
    (h : l.dropWhile p = []) :
    (l ++ v).takeWhile p = l ++ v.takeWhile p ∧ (l ++ v).dropWhile p = v.dropWhile p := by
  induction l with
  | nil => simp
  | cons c l' ih =>
    have hc : p c = true := by
      by_contra hcn
      rw [List.dropWhile_cons, if_neg hcn] at h
      exact List.noConfusion h
    have h' : l'.dropWhile p = [] := by rwa [List.dropWhile_cons, if_pos hc] at h
    obtain ⟨ht, hd⟩ := ih h'
    constructor
    · rw [List.cons_append, List.takeWhile_cons, if_pos hc, ht, List.cons_append]
    · rw [List.cons_append, List.dropWhile_cons, if_pos hc, hd]

/-- A label match starting inside a trimmed label-free body cannot be
completed by the section separator: extending such a body with
`'\n' :: 'S' :: w` creates no label match at its head.  (The separator's
newline fails every letter check, may only extend a whitespace run that
then meets the non-digit `'S'`, and is neither a digit nor the colon.) -/
theorem stepLabelSplit_extend (u w : List Char) (hu : u ≠ [])
    (hlast : ∀ c, u.getLast? = some c → isWS c = false)
    (hnone : stepLabelSplit u = none) :
    stepLabelSplit (u ++ '\n' :: 'S' :: w) = none := by
  match u, hu with
  | [c1], _ => exact sls_bad2 c1 '\n' ('S' :: w) (by decide)
  | [c1, c2], _ => exact sls_bad3 c1 c2 '\n' ('S' :: w) (by decide)
  | [c1, c2, c3], _ => exact sls_bad4 c1 c2 c3 '\n' ('S' :: w) (by decide)
  | c1 :: c2 :: c3 :: c4 :: u4, _ =>
    rw [show ((c1 :: c2 :: c3 :: c4 :: u4) ++ '\n' :: 'S' :: w) =
      (c1 :: c2 :: c3 :: c4 :: (u4 ++ '\n' :: 'S' :: w)) from rfl]
    rw [sls_cons4] at hnone ⊢
    by_cases hcond : (c1.toLower = 's' ∧ c2.toLower = 't' ∧ c3.toLower = 'e' ∧ c4.toLower = 'p')
    · rw [if_pos hcond] at hnone ⊢
      by_cases h4 : u4 = []
      · subst h4
        rw [List.nil_append]
        have e1 : ('\n' :: 'S' :: w).takeWhile isWS = ['\n'] := by
          rw [List.takeWhile_cons, if_pos (by decide), List.takeWhile_cons, if_neg (by decide)]
        have e2 : ('\n' :: 'S' :: w).dropWhile isWS = 'S' :: w := by
          rw [List.dropWhile_cons, if_pos (by decide), List.dropWhile_cons, if_neg (by decide)]
        have e3 : ('S' :: w).takeWhile isDigitC = [] := by
          rw [List.takeWhile_cons, if_neg (by decide)]
        rw [e1, if_neg (by simp), e2, e3, if_pos rfl]
      · have hlast4 : ∀ c, u4.getLast? = some c → isWS c = false := by
          intro c hc
          apply hlast
          obtain ⟨y, ys, rfl⟩ := List.exists_cons_of_ne_nil h4
          rw [List.getLast?_cons_cons, List.getLast?_cons_cons, List.getLast?_cons_cons,
            List.getLast?_cons_cons]
          exact hc
        have hne4 : u4.dropWhile isWS ≠ [] := dropWhile_ne_nil_of_getLast isWS u4 h4 hlast4
        obtain ⟨htw, hdw⟩ := takeWhile_append_of_drop_ne isWS u4 ('\n' :: 'S' :: w) hne4
        rw [htw, hdw]
        by_cases hws : u4.takeWhile isWS = []
        · rw [if_pos hws]
        · rw [if_neg hws] at hnone ⊢
          by_cases hdd : (u4.dropWhile isWS).dropWhile isDigitC = []
          · obtain ⟨ht3, hd3⟩ :=
              takeWhile_append_of_drop_nil isDigitC (u4.dropWhile isWS) ('\n' :: 'S' :: w) hdd
            rw [ht3, hd3]
            have e4 : ('\n' :: 'S' :: w).takeWhile isDigitC = [] := by
              rw [List.takeWhile_cons, if_neg (by decide)]
            have e5 : ('\n' :: 'S' :: w).dropWhile isDigitC = '\n' :: 'S' :: w := by
              rw [List.dropWhile_cons, if_neg (by decide)]
            rw [e4, e5, List.append_nil, if_neg hne4]
            rfl
          · obtain ⟨ht2, hd2⟩ :=
              takeWhile_append_of_drop_ne isDigitC (u4.dropWhile isWS) ('\n' :: 'S' :: w) hdd
            rw [ht2, hd2]
            by_cases hdig : (u4.dropWhile isWS).takeWhile isDigitC = []
            · rw [if_pos hdig]
            · rw [if_neg hdig] at hnone ⊢
              obtain ⟨w0, w', hw⟩ := List.exists_cons_of_ne_nil hdd
              rw [hw] at hnone ⊢
              by_cases hcolon : w0 = ':'
              · subst hcolon
                simp at hnone
              · rw [List.cons_append]
                split
                · next r heq =>
                  injection heq with h1 _
                  exact absurd h1 hcolon
                · rfl
    · rw [if_neg hcond] at hnone ⊢

theorem stepLabelSplit_digit (d : Char) (hd : d ∈ digitChars) (X : List Char) :
    stepLabelSplit ('S' :: 't' :: 'e' :: 'p' :: ' ' :: d :: ':' :: ' ' :: X) =
      some (' ' :: X) := by
  simp only [digitChars, List.mem_cons, List.not_mem_nil, or_false] at hd
  rcases hd with rfl | rfl | rfl | rfl | rfl | rfl | rfl | rfl | rfl | rfl <;> rfl

theorem digit_not_s (d : Char) (hd : d ∈ digitChars) : ¬ d.toLower = 's' := by
  simp only [digitChars, List.mem_cons, List.not_mem_nil, or_false] at hd
  rcases hd with rfl | rfl | rfl | rfl | rfl | rfl | rfl | rfl | rfl | rfl <;> decide

theorem goodBody_head (a : List Char) (h : GoodBody a) :
    ∀ c, a.head? = some c → isWS c = false := by
  intro c hc
  have h1 := h.1
  rw [hc] at h1
  exact h1

theorem goodBody_last (a : List Char) (h : GoodBody a) :
    ∀ c, a.getLast? = some c → isWS c = false := by
  intro c hc
  have h1 := h.2.1
  rw [hc] at h1
  exact h1

theorem goodBody_nolabel (a : List Char) (h : GoodBody a) :
    ∀ j, stepLabelSplit (a.drop j) = none := by
  intro j
  by_cases hj : j < a.length
  · exact h.2.2 j hj
  · rw [List.drop_eq_nil_of_le (le_of_not_lt hj)]
    rfl

/-- Scanning a trimmed, label-free body before the next section's label:
no split occurs inside the body. -/
theorem bodyPass (a : List Char) (w : List Char)
    (hlast : ∀ c, a.getLast? = some c → isWS c = false)
    (hnl : ∀ j, stepLabelSplit (a.drop j) = none) :
    ∀ acc, splitSectionsAux (a ++ '\n' :: 'S' :: w) acc =
      splitSectionsAux ('\n' :: 'S' :: w) (a.reverse ++ acc) := by
  induction a with
  | nil => simp
  | cons c a' ih =>
    intro acc
    have hext : stepLabelSplit (c :: (a' ++ '\n' :: 'S' :: w)) = none := by
      rw [← List.cons_append]
      exact stepLabelSplit_extend (c :: a') w (by simp) hlast (hnl 0)
    have hstep : splitSectionsAux ((c :: a') ++ '\n' :: 'S' :: w) acc =
        splitSectionsAux (a' ++ '\n' :: 'S' :: w) (c :: acc) := by
      simp [splitSectionsAux, hext]
    have hlast' : ∀ c', a'.getLast? = some c' → isWS c' = false := by
      intro c' hc'
      rcases a' with _ | ⟨y, ys⟩
      · exact Option.noConfusion hc'
      · exact hlast c' (by rwa [List.getLast?_cons_cons])
    rw [hstep, ih hlast' (fun j => hnl (j + 1)) (c :: acc)]
    simp

/-- Scanning a label-free body at the very end of the text. -/
theorem bodyPassEnd (a : List Char) (hnl : ∀ j, stepLabelSplit (a.drop j) = none) :
    ∀ acc, splitSectionsAux a acc = [acc.reverse ++ a] := by
  induction a with
  | nil =>
    intro acc
    simp [splitSectionsAux]
  | cons c a' ih =>
    intro acc
    have h0 : stepLabelSplit (c :: a') = none := hnl 0
    have hstep : splitSectionsAux (c :: a') acc = splitSectionsAux a' (c :: acc) := by
      simp [splitSectionsAux, h0]
    rw [hstep, ih (fun j => hnl (j + 1)) (c :: acc)]
    simp

/-- Step past a newline that no label match can start at. -/
theorem newlineStep (r acc : List Char) :
    splitSectionsAux ('\n' :: r) acc = splitSectionsAux r ('\n' :: acc) := by
  simp [splitSectionsAux, stepLabelSplit_not_s '\n' r (by decide)]

theorem labelledText_cons (d : Char) (a : List Char) (rest : List (Char × List Char)) :
    labelledText ((d, a) :: rest) =
      'S' :: 't' :: 'e' :: 'p' :: ' ' :: d :: ':' :: ' ' :: (a ++ tailText rest) := by
  cases rest <;> rfl

theorem expectedSections_cons (d : Char) (a : List Char) (rest : List (Char × List Char)) :
    expectedSections ((d, a) :: rest) =
      ('S' :: 't' :: 'e' :: 'p' :: ' ' :: d :: ':' :: ' ' :: (a ++ sepText rest)) ::
        expectedSections rest := by
  cases rest <;> rfl

theorem label_chars_not_s (d : Char) (hd : d ∈ digitChars) :
    ∀ c ∈ ['t', 'e', 'p', ' ', d, ':', ' '], ¬ c.toLower = 's' := by
  intro c hc
  simp only [List.mem_cons, List.not_mem_nil, or_false] at hc
  rcases hc with rfl | rfl | rfl | rfl | rfl | rfl | rfl
  · decide
  · decide
  · decide
  · decide
  · exact digit_not_s _ hd
  · decide
  · decide

/-- Scanning one labelled section (from just after its leading `'S'`, with
accumulator `['S']`) yields that section and then the sections of the
remaining bodies. -/
theorem scanBody (rest : List (Char × List Char)) :
    ∀ (d : Char) (a : List Char), d ∈ digitChars → GoodBody a →
    (∀ p ∈ rest, p.1 ∈ digitChars ∧ GoodBody p.2) →
    splitSectionsAux
      ('t' :: 'e' :: 'p' :: ' ' :: d :: ':' :: ' ' :: (a ++ tailText rest)) ['S'] =
    expectedSections ((d, a) :: rest) := by
  induction rest with
  | nil =>
    intro d a hd ha _
    rw [show tailText [] = [] from rfl, List.append_nil,
      show ('t' :: 'e' :: 'p' :: ' ' :: d :: ':' :: ' ' :: a) =
        ['t', 'e', 'p', ' ', d, ':', ' '] ++ a from rfl,
      splitSectionsAux_no_label ['t', 'e', 'p', ' ', d, ':', ' '] a (label_chars_not_s d hd) ['S'],
      bodyPassEnd a (goodBody_nolabel a ha) _,
      expectedSections_cons, show sepText ([] : List (Char × List Char)) = [] from rfl,
      List.append_nil]
    simp [expectedSections]
  | cons b rest' ih =>
    intro d a hd ha hall
    obtain ⟨d', a'⟩ := b
    have hd' : d' ∈ digitChars := (hall (d', a') (List.mem_cons_self _ _)).1
    have ha' : GoodBody a' := (hall (d', a') (List.mem_cons_self _ _)).2
    rw [show tailText ((d', a') :: rest') = '\n' :: labelledText ((d', a') :: rest') from rfl,
      labelledText_cons,
      show ('t' :: 'e' :: 'p' :: ' ' :: d :: ':' :: ' ' ::
          (a ++ '\n' :: 'S' :: 't' :: 'e' :: 'p' :: ' ' :: d' :: ':' :: ' ' ::
            (a' ++ tailText rest'))) =
        ['t', 'e', 'p', ' ', d, ':', ' '] ++
          (a ++ '\n' :: 'S' :: 't' :: 'e' :: 'p' :: ' ' :: d' :: ':' :: ' ' ::
            (a' ++ tailText rest')) from rfl,
      splitSectionsAux_no_label ['t', 'e', 'p', ' ', d, ':', ' '] _ (label_chars_not_s d hd) ['S'],
      bodyPass a _ (goodBody_last a ha) (goodBody_nolabel a ha) _,
      newlineStep,
      splitSectionsAux_split _ _
        (by rw [stepLabelSplit_digit d' hd']; rfl) (by simp),
      ih d' a' hd' ha' (fun p hp => hall p (List.mem_cons_of_mem _ hp)),
      expectedSections_cons d a ((d', a') :: rest'),
      show sepText ((d', a') :: rest') = ['\n'] from rfl]
    simp

/-- The split of a labelled text: one section per body. -/
theorem labelledText_sections (d : Char) (a : List Char) (rest : List (Char × List Char))
    (hd : d ∈ digitChars) (ha : GoodBody a)
    (hall : ∀ p ∈ rest, p.1 ∈ digitChars ∧ GoodBody p.2) :
    splitSections (labelledText ((d, a) :: rest)) = expectedSections ((d, a) :: rest) := by
  rw [splitSections, labelledText_cons, splitSectionsAux_start]
  exact scanBody rest d a hd ha hall

/-- Processing a non-final section (trailing newline): keep the body
exactly when its length exceeds 20. -/
theorem processSection_mid (d : Char) (a : List Char) (hd : d ∈ digitChars) (ha : GoodBody a) :
    processSection ('S' :: 't' :: 'e' :: 'p' :: ' ' :: d :: ':' :: ' ' :: (a ++ ['\n'])) =
      if 20 < a.length then some a else none := by
  by_cases h0 : a = []
  · subst h0
    simp only [digitChars, List.mem_cons, List.not_mem_nil, or_false] at hd
    rcases hd with rfl | rfl | rfl | rfl | rfl | rfl | rfl | rfl | rfl | rfl <;> decide
  · have htrim : jsTrim ('S' :: 't' :: 'e' :: 'p' :: ' ' :: d :: ':' :: ' ' :: (a ++ ['\n'])) =
        'S' :: 't' :: 'e' :: 'p' :: ' ' :: d :: ':' :: ' ' :: a := by
      rw [show ('S' :: 't' :: 'e' :: 'p' :: ' ' :: d :: ':' :: ' ' :: (a ++ ['\n'])) =
        ('S' :: ('t' :: 'e' :: 'p' :: ' ' :: d :: ':' :: [' ']) ++ a) ++ ['\n'] from by simp]
      show trimL (trimR _) = _
      rw [trimR_append_ws _ '\n' (by decide)]
      have h2 := jsTrim_pre_body 'S' ('t' :: 'e' :: 'p' :: ' ' :: d :: ':' :: [' ']) a
        (by decide) h0 (goodBody_last a ha)
      rw [show trimL (trimR ('S' :: ('t' :: 'e' :: 'p' :: ' ' :: d :: ':' :: [' ']) ++ a)) =
          jsTrim ('S' :: ('t' :: 'e' :: 'p' :: ' ' :: d :: ':' :: [' ']) ++ a) from rfl, h2]
      simp
    have hlabel : stepLabelSplit
        (jsTrim ('S' :: 't' :: 'e' :: 'p' :: ' ' :: d :: ':' :: ' ' :: (a ++ ['\n']))) =
        some (' ' :: a) := by
      rw [htrim]
      exact stepLabelSplit_digit d hd a
    have hred : processSection
        ('S' :: 't' :: 'e' :: 'p' :: ' ' :: d :: ':' :: ' ' :: (a ++ ['\n'])) =
        (if 20 < (jsTrim (' ' :: a)).length then some (jsTrim (' ' :: a)) else none) := by
      unfold processSection
      rw [hlabel]
    rw [hred, jsTrim_space_body a h0 (goodBody_head a ha) (goodBody_last a ha)]

/-- Processing the final section (no trailing newline). -/
theorem processSection_last (d : Char) (a : List Char) (hd : d ∈ digitChars) (ha : GoodBody a) :
    processSection ('S' :: 't' :: 'e' :: 'p' :: ' ' :: d :: ':' :: ' ' :: a) =
      if 20 < a.length then some a else none := by
  by_cases h0 : a = []
  · subst h0
    simp only [digitChars, List.mem_cons, List.not_mem_nil, or_false] at hd
    rcases hd with rfl | rfl | rfl | rfl | rfl | rfl | rfl | rfl | rfl | rfl <;> decide
  · have htrim : jsTrim ('S' :: 't' :: 'e' :: 'p' :: ' ' :: d :: ':' :: ' ' :: a) =
        'S' :: 't' :: 'e' :: 'p' :: ' ' :: d :: ':' :: ' ' :: a := by
      have h2 := jsTrim_pre_body 'S' ('t' :: 'e' :: 'p' :: ' ' :: d :: ':' :: [' ']) a
        (by decide) h0 (goodBody_last a ha)
      simpa using h2
    have hlabel : stepLabelSplit
        (jsTrim ('S' :: 't' :: 'e' :: 'p' :: ' ' :: d :: ':' :: ' ' :: a)) =
        some (' ' :: a) := by
      rw [htrim]
      exact stepLabelSplit_digit d hd a
    have hred : processSection ('S' :: 't' :: 'e' :: 'p' :: ' ' :: d :: ':' :: ' ' :: a) =
        (if 20 < (jsTrim (' ' :: a)).length then some (jsTrim (' ' :: a)) else none) := by
      unfold processSection
      rw [hlabel]
    rw [hred, jsTrim_space_body a h0 (goodBody_head a ha) (goodBody_last a ha)]

/-- Filtering the expected sections through processSection keeps exactly
the bodies longer than 20 characters. -/
theorem sections_filterMap (bodies : List (Char × List Char))
    (hall : ∀ p ∈ bodies, p.1 ∈ digitChars ∧ GoodBody p.2) :
    (expectedSections bodies).filterMap processSection =
      (bodies.map Prod.snd).filter (fun a => 20 < a.length) := by
  induction bodies with
  | nil => rfl
  | cons p rest ih =>
    obtain ⟨d, a⟩ := p
    have hp := hall (d, a) (List.mem_cons_self _ _)
    have hrest : ∀ q ∈ rest, q.1 ∈ digitChars ∧ GoodBody q.2 :=
      fun q hq => hall q (List.mem_cons_of_mem _ hq)
    rw [expectedSections_cons, List.filterMap_cons]
    have hsec : processSection
        ('S' :: 't' :: 'e' :: 'p' :: ' ' :: d :: ':' :: ' ' :: (a ++ sepText rest)) =
        if 20 < a.length then some a else none := by
      cases rest with
      | nil =>
        show processSection ('S' :: 't' :: 'e' :: 'p' :: ' ' :: d :: ':' :: ' ' ::
          (a ++ [])) = _
        rw [List.append_nil]
        exact processSection_last d a hp.1 hp.2
      | cons q rest' =>
        exact processSection_mid d a hp.1 hp.2
    rw [hsec, List.map_cons, List.filter_cons]
    by_cases hlen : 20 < a.length
    · rw [if_pos hlen, if_pos (by exact decide_eq_true hlen)]
      rw [ih hrest]
    · rw [if_neg hlen, if_neg (by simpa using hlen)]
      rw [ih hrest]

/-- Parsing a labelled text with good bodies keeps exactly, and in order,
the bodies longer than 20 characters. -/
theorem parse_labelledText (bodies : List (Char × List Char))
    (hall : ∀ p ∈ bodies, p.1 ∈ digitChars ∧ GoodBody p.2) :
    parseStepsL (labelledText bodies) =
      (bodies.map Prod.snd).filter (fun a => 20 < a.length) := by
  cases bodies with
  | nil => rfl
  | cons p rest =>
    obtain ⟨d, a⟩ := p
    have hp := hall (d, a) (List.mem_cons_self _ _)
    have hrest : ∀ q ∈ rest, q.1 ∈ digitChars ∧ GoodBody q.2 :=
      fun q hq => hall q (List.mem_cons_of_mem _ hq)
    unfold parseStepsL
    rw [labelledText_sections d a rest hp.1 hp.2 hrest]
    exact sections_filterMap ((d, a) :: rest) hall

set_option maxRecDepth 8000 in
/-- C2: `parsePlanIntoSteps` splits on case-insensitive `Step <integer>:`
labels, discards each label, trims each body and keeps it iff its trimmed
length exceeds 20: (i) every returned step is trimmed and longer than 20
characters; (ii) for any list of labelled bodies that are trimmed and
contain no step label, the parse returns, in order, exactly the bodies
longer than 20 characters; (iii) in particular `Step 1: A\nStep 2: B`
with label-free trimmed bodies longer than 20 characters parses to
`[A, B]`; (iv) a 21-character body is kept while a 20-character body is
dropped. -/
theorem claim_C2 :
    (∀ (plan : String), ∀ s ∈ parsePlanIntoSteps plan, 20 < s.length ∧ jsTrimS s = s) ∧
    (∀ bodies : List (Char × List Char),
      (∀ p ∈ bodies, p.1 ∈ digitChars ∧ GoodBody p.2) →
      parseStepsL (labelledText bodies) =
        (bodies.map Prod.snd).filter (fun a => 20 < a.length)) ∧
    (∀ A B : String, GoodBody A.data → GoodBody B.data →
      20 < A.length → 20 < B.length →
      parsePlanIntoSteps ("Step 1: " ++ A ++ "\n" ++ "Step 2: " ++ B) = [A, B]) ∧
    parsePlanIntoSteps "Step 1: aaaaaaaaaaaaaaaaaaaaa\nStep 2: bbbbbbbbbbbbbbbbbbbb" =
      ["aaaaaaaaaaaaaaaaaaaaa"] := by
  refine ⟨?_, parse_labelledText, ?_, by decide⟩
  · intro plan s hs
    unfold parsePlanIntoSteps at hs
    obtain ⟨l, hl, rfl⟩ := List.mem_map.mp hs
    obtain ⟨hlen, htrim⟩ := parseStepsL_sound plan.data l hl
    exact ⟨hlen, congrArg String.mk htrim⟩
  · intro A B hA hB hA20 hB20
    have hdata : ("Step 1: " ++ A ++ "\n" ++ "Step 2: " ++ B).data =
        labelledText [('1', A.data), ('2', B.data)] := by
      simp [labelledText, String.data_append]
    have hall : ∀ p ∈ [('1', A.data), ('2', B.data)], p.1 ∈ digitChars ∧ GoodBody p.2 := by
      intro p hp
      rcases List.mem_cons.mp hp with rfl | hp
      · exact ⟨show ('1' : Char) ∈ digitChars by decide, hA⟩
      · rcases List.mem_cons.mp hp with rfl | hp
        · exact ⟨show ('2' : Char) ∈ digitChars by decide, hB⟩
        · cases hp
    have h1 : parsePlanIntoSteps ("Step 1: " ++ A ++ "\n" ++ "Step 2: " ++ B) =
        (parseStepsL (labelledText [('1', A.data), ('2', B.data)])).map String.mk := by
      rw [parsePlanIntoSteps, hdata]
    rw [h1, parse_labelledText _ hall]
    simp [List.filter_cons, hA20, hB20, str_eta]

set_option maxRecDepth 8000 in
/-- C2 witness: two ordinary trimmed bodies longer than 20 characters
(each containing letters of the label alphabet, but no label) are both
kept, in order. -/
theorem claim_C2_witness :
    parsePlanIntoSteps ("Step 1: " ++ "Install deps and set up the project" ++ "\n" ++
        "Step 2: " ++ "Test the observable resulting state") =
      ["Install deps and set up the project", "Test the observable resulting state"] :=
  claim_C2.2.2.1 "Install deps and set up the project" "Test the observable resulting state"
    (by decide) (by decide) (by decide) (by decide)
